import Mathlib

/-!
Verification development for the parsyfiles parser-combination core
(`parsing_combining_parsers.py`, `support_for_collections.py`).

The Python code is shallowly embedded: exceptions become `Except`-style
error values, Python `dict`s (insertion ordered, overwriting insert)
become association lists with an overwriting insert, and the candidate
parsers of a cascade are identified by their index in the candidate list
(the Python dicts key them by object identity, and the candidates of a
cascade are distinct objects).
-/

namespace Parsyfiles

/-! ## Python dict as an insertion-ordered association list -/

/-- Python dict assignment `m[k] = v`: overwrite in place when the key is
present, append otherwise. -/
def dictInsert {κ ε : Type} [BEq κ] (m : List (κ × ε)) (k : κ) (v : ε) : List (κ × ε) :=
  if m.any (fun p => p.1 == k) then
    m.map (fun p => if p.1 == k then (k, v) else p)
  else m ++ [(k, v)]

/-- Python dict lookup: value of the first (and, in a well-formed dict,
only) entry with the given key. -/
def dictLookup {κ ε : Type} [BEq κ] (m : List (κ × ε)) (k : κ) : Option ε :=
  (m.find? (fun p => p.1 == k)).map Prod.snd

/-- Python `m.update(m2)`. -/
def dictUpdate {κ ε : Type} [BEq κ] (m m2 : List (κ × ε)) : List (κ × ε) :=
  m2.foldl (fun acc p => dictInsert acc p.1 p.2) m

/-- The keys of a dict, in order. -/
def dictKeys {κ ε : Type} (m : List (κ × ε)) : List κ := m.map Prod.fst

/-! ## The cascading parsing plan (`CascadingParser.CascadingParsingPlan`)

A candidate parser of the cascade is abstracted by the outcome of its
`create_parsing_plan` call (an exception or a parsing plan), and a parsing
plan by the outcome of its `execute` call.  `α` is the type of parsed
values, `ε` the type of captured exceptions. -/

/-- A (sub-)parsing plan: `execute` either returns a value or raises. -/
structure Plan (α ε : Type) where
  execResult : Except ε α

/-- A candidate parser of a cascade, abstracted by the outcome of its
`create_parsing_plan` call. -/
structure Candidate (α ε : Type) where
  create_parsing_plan : Except ε (Plan α ε)

/-- Everything a `CascadingParsingPlan` can raise: the `check_var` failure of
the constructor, the two flavours of `CascadeError` (carrying the map from
candidate index to captured exception), and the plain `Exception` raised when
executing with no active plan. -/
inductive Raised (ε : Type) where
  | varCheckError
  | creationCascade (caught : List (Nat × ε))
  | execCascade (caught : List (Nat × ε))
  | emptyParserList
  deriving DecidableEq

/-- The mutable state of a `CascadingParsingPlan`. -/
structure CPState (α ε : Type) where
  parser_list : List (Candidate α ε)
  active_parser_idx : Int
  active_parsing_plan : Option (Plan α ε)
  parsing_plan_creation_errors : List (Nat × ε)

/-- The `for i in range(start, len(parser_list))` loop inside
`activate_next_working_parser`: `rem` is `parser_list[i:]`, `i` the current
index, `cerrs` the creation-error dict accumulated so far.  Returns the
first working `(index, plan)` (or `none`) and the updated dict. -/
def tryLoop {α ε : Type} : List (Candidate α ε) → Nat → List (Nat × ε) →
    Option (Nat × Plan α ε) × List (Nat × ε)
  | [], _, cerrs => (none, cerrs)
  | c :: rest, i, cerrs =>
    match c.create_parsing_plan with
    | .ok plan => (some (i, plan), cerrs)
    | .error e => tryLoop rest (i + 1) (dictInsert cerrs i e)

/-- The activation scan starting at index `start`. -/
def tryFrom {α ε : Type} (cands : List (Candidate α ε)) (start : Nat)
    (cerrs : List (Nat × ε)) : Option (Nat × Plan α ε) × List (Nat × ε) :=
  tryLoop (cands.drop start) start cerrs

/-- `CascadingParsingPlan.activate_next_working_parser`: scan the candidates
starting at `active_parser_idx + 1`; keep the first that builds a plan,
recording every construction failure; raise the aggregate cascade error when
none is left (merging already-caught execution errors when the activation was
triggered by an execution failure). -/
def activateNextWorkingCandidate {α ε : Type} (s : CPState α ε)
    (already_caught_execution_errors : Option (List (Nat × ε))) :
    Except (Raised ε) (CPState α ε) :=
  match tryFrom s.parser_list (s.active_parser_idx + 1).toNat
      s.parsing_plan_creation_errors with
  | (some (i, plan), cerrs) =>
    .ok { s with active_parser_idx := (i : Int),
                 active_parsing_plan := some plan,
                 parsing_plan_creation_errors := cerrs }
  | (none, cerrs) =>
    match already_caught_execution_errors with
    | none => .error (.creationCascade cerrs)
    | some execErrs => .error (.execCascade (dictUpdate cerrs execErrs))

/-- The `while self.active_parsing_plan is not None` loop of
`CascadingParsingPlan.execute`, together with the raise after the loop
(which is unreachable from reachable states, since a successful activation
always installs a plan and a failed one raises). -/
def executeLoop {α ε : Type} (s : CPState α ε) (execution_errors : List (Nat × ε)) :
    Except (Raised ε) α :=
  match s.active_parsing_plan with
  | none =>
    .error (.execCascade (dictUpdate s.parsing_plan_creation_errors execution_errors))
  | some plan =>
    match plan.execResult with
    | .ok v => .ok v
    | .error e =>
      let execution_errors' := dictInsert execution_errors s.active_parser_idx.toNat e
      match hact : activateNextWorkingCandidate s (some execution_errors') with
      | .error r => .error r
      | .ok s' => executeLoop s' execution_errors'
termination_by s.parser_list.length + 1 - (s.active_parser_idx + 1).toNat
decreasing_by
  have B : ∀ (rem : List (Candidate α ε)) (i : Nat) (cerrs : List (Nat × ε))
      (j : Nat) (pl : Plan α ε) (cerrs' : List (Nat × ε)),
      tryLoop rem i cerrs = (some (j, pl), cerrs') → i ≤ j ∧ j < i + rem.length := by
    intro rem
    induction rem with
    | nil => intro i cerrs j pl cerrs' h; simp [tryLoop] at h
    | cons c rest ih =>
      intro i cerrs j pl cerrs' h
      simp only [tryLoop] at h
      cases hc : c.create_parsing_plan with
      | ok p =>
        rw [hc] at h
        simp at h
        obtain ⟨h1, _, _⟩ := h
        simp [h1.symm]
      | error e =>
        rw [hc] at h
        have := ih (i + 1) (dictInsert cerrs i e) j pl cerrs' h
        constructor
        · omega
        · simp only [List.length_cons]; omega
  unfold activateNextWorkingCandidate at hact
  cases htf : tryFrom s.parser_list (s.active_parser_idx + 1).toNat
      s.parsing_plan_creation_errors with
  | mk res cerrs =>
    rw [htf] at hact
    cases res with
    | none => simp at hact
    | some ip =>
      obtain ⟨i, pl⟩ := ip
      simp at hact
      unfold tryFrom at htf
      obtain ⟨hb1, hb2⟩ := B _ _ _ _ _ _ htf
      have hdl : (s.parser_list.drop (s.active_parser_idx + 1).toNat).length
          = s.parser_list.length - (s.active_parser_idx + 1).toNat := by
        simp [List.length_drop]
      rw [hact.symm]
      simp only []
      omega

/-- `CascadingParsingPlan.execute`. -/
def CPState.execute {α ε : Type} (s : CPState α ε) : Except (Raised ε) α :=
  match s.active_parsing_plan with
  | some _ => executeLoop s []
  | none => .error .emptyParserList

/-- `CascadingParsingPlan.__init__`: `check_var(parser_list, min_len=1)`, then
a first activation starting from index `-1`. -/
def createCascadingParsingPlan {α ε : Type} (cands : List (Candidate α ε)) :
    Except (Raised ε) (CPState α ε) :=
  if cands.length < 1 then .error .varCheckError
  else
    activateNextWorkingCandidate
      { parser_list := cands, active_parser_idx := -1,
        active_parsing_plan := none, parsing_plan_creation_errors := [] } none

/-- Build the cascading plan for a query and execute it. -/
def runCascade {α ε : Type} (cands : List (Candidate α ε)) : Except (Raised ε) α :=
  match createCascadingParsingPlan cands with
  | .error r => .error r
  | .ok s => s.execute

/-! ### Helper predicates for the cascading-plan proofs -/

/-- Candidate `j` has failed and its failure is recorded: either its plan
construction failed and the failure sits in the creation-error dict (and not
in the execution-error dict), or its construction succeeded, its execution
failed, and the failure sits in the execution-error dict. -/
def Covered {α ε : Type} (cands : List (Candidate α ε))
    (cerrs execErrs : List (Nat × ε)) (j : Nat) : Prop :=
  (∃ e, (cands[j]?).map (fun c => c.create_parsing_plan) = some (.error e) ∧
        dictLookup cerrs j = some e ∧ dictLookup execErrs j = none) ∨
  (∃ pl e, (cands[j]?).map (fun c => c.create_parsing_plan) = some (.ok pl) ∧
           pl.execResult = .error e ∧ dictLookup execErrs j = some e)

/-- Candidate `j`'s failure (construction or execution) appears in the final
aggregated failure map `m`. -/
def FinalCovered {α ε : Type} (cands : List (Candidate α ε))
    (m : List (Nat × ε)) (j : Nat) : Prop :=
  ∃ e, dictLookup m j = some e ∧
    ((cands[j]?).map (fun c => c.create_parsing_plan) = some (.error e) ∨
     ∃ pl, (cands[j]?).map (fun c => c.create_parsing_plan) = some (.ok pl) ∧
           pl.execResult = .error e)

/-- Invariant of the execution loop of a cascading plan. -/
def LoopInv {α ε : Type} (s : CPState α ε) (execErrs : List (Nat × ε)) : Prop :=
  0 ≤ s.active_parser_idx ∧
  s.active_parser_idx < (s.parser_list.length : Int) ∧
  (∃ pl, s.active_parsing_plan = some pl ∧
     (s.parser_list[s.active_parser_idx.toNat]?).map (fun c => c.create_parsing_plan)
       = some (.ok pl)) ∧
  (∀ j : Nat, j < s.active_parser_idx.toNat →
     Covered s.parser_list s.parsing_plan_creation_errors execErrs j) ∧
  (dictKeys execErrs).Nodup ∧
  (∀ k ∈ dictKeys execErrs, k < s.active_parser_idx.toNat ∧
     ∃ pl, ((s.parser_list[k]?).map (fun c => c.create_parsing_plan)) = some (.ok pl))

/-! ## The cascading parser itself (`CascadingParser`, claims C3-C5)

Only the capability descriptor of a candidate matters to
`add_parser_to_cascade`, so a candidate is abstracted by its descriptor. -/

/-- The sentinel `typing.Any` and ordinary types. -/
inductive Ty where
  | anyT
  | named (name : String)
  deriving DecidableEq

/-- The capability descriptor of a candidate parser (`supported_types` is a
Python set, embedded as a duplicate-free list; `supported_exts` likewise). -/
structure AnyParserCaps where
  supported_types : List Ty
  supported_exts : List String
  deriving DecidableEq

/-- Modelled from the spec: the dedicated pseudo-extension through which a
parser advertises multi-file support.  `AnyParser.supports_multifile` /
`supports_singlefile` live in `parsing_core`, which is not among the sources
here; per the spec's capability descriptor, multi-file support is carried by
the extension set (the flag copy in `add_parser_to_cascade` is commented
out), so the flags are derived from `supported_exts`. -/
def multifile_ext : String := "multifile"

/-- Modelled from the spec: a parser supports multi-file parsing when its
extension set contains the multifile pseudo-extension. -/
def supports_multifile (exts : List String) : Bool :=
  exts.contains multifile_ext

/-- Modelled from the spec: a parser supports single-file parsing when it
has at least one ordinary extension. -/
def supports_singlefile (exts : List String) : Bool :=
  exts.any (fun x => !(x == multifile_ext))

/-- The state of a `CascadingParser`: `configured` flag (set to `False` in
`__init__` and never written again anywhere in the class), adopted
descriptor, and the candidate list `_parsers_list`. -/
structure CascadingParser where
  configured : Bool
  supported_types : List Ty
  supported_exts : List String
  parsers_list : List AnyParserCaps
  deriving DecidableEq

/-- The state right after `CascadingParser.__init__` ran its first two
assignments (before any `add_parser_to_cascade` call); the descriptor
fields are unset in Python and arbitrary here. -/
def CascadingParser.start : CascadingParser :=
  { configured := false, supported_types := [], supported_exts := [],
    parsers_list := [] }

/-- The distinct `ValueError`s that `add_parser_to_cascade` can raise. -/
inductive AddError where
  | singlefileSupportMismatch
  | multifileSupportMismatch
  | anyTypeMismatch
  | missingTypes
  | missingExts
  deriving DecidableEq

/-- `CascadingParser.add_parser_to_cascade`: when `configured` is false the
cascade adopts the descriptor of the parser being added, then the
compatibility checks run, then the parser is appended. -/
def add_parser_to_cascade (c0 : CascadingParser) (p : AnyParserCaps) :
    Except AddError CascadingParser :=
  let c := if !c0.configured then
      { c0 with supported_exts := p.supported_exts,
                supported_types := p.supported_types }
    else c0
  if supports_singlefile c.supported_exts && !(supports_singlefile p.supported_exts) then
    .error .singlefileSupportMismatch
  else if supports_multifile c.supported_exts && !(supports_multifile p.supported_exts) then
    .error .multifileSupportMismatch
  else if !(p.supported_types.contains Ty.anyT) && c.supported_types.contains Ty.anyT then
    .error .anyTypeMismatch
  else if !(p.supported_types.contains Ty.anyT)
      && !((c.supported_types.filter (fun t => !(p.supported_types.contains t))).isEmpty) then
    .error .missingTypes
  else if !((c.supported_exts.filter (fun x => !(p.supported_exts.contains x))).isEmpty) then
    .error .missingExts
  else .ok { c with parsers_list := c.parsers_list ++ [p] }

/-- The loop of `CascadingParser.__init__` over an initial parser list. -/
def addAll (c : CascadingParser) : List AnyParserCaps → Except AddError CascadingParser
  | [] => .ok c
  | p :: ps =>
    match add_parser_to_cascade c p with
    | .error e => .error e
    | .ok c' => addAll c' ps

/-! ## The parsing chain (`ParsingChain`, claims C6-C7) -/

/-- A base parser for a chain: capability descriptor plus its single-file
parse primitive `_parse_singlefile(desired_type, file_path, encoding)`. -/
structure BaseParserModel (V E : Type) where
  supported_types : List Ty
  supported_exts : List String
  parse_singlefile : Ty → String → String → Except E V

/-- A converter: declared source and destination types, the
`is_able_to_convert(strict, from_type, to_type=None)` predicate and the
conversion function `convert(desired_type, value)`. -/
structure ConverterModel (V E : Type) where
  from_type : Ty
  to_type : Ty
  is_able_to_convert : Bool → Ty → Bool
  convert : Ty → V → Except E V

/-- The distinct `ValueError`s of `ParsingChain.__init__`. -/
inductive ChainInitError where
  | pointlessAnyType
  | ambiguousDestType
  | inconsistentTypes
  deriving DecidableEq

/-- A constructed parsing chain. -/
structure ParsingChain (V E : Type) where
  base : BaseParserModel V E
  converter : ConverterModel V E
  strict : Bool
  supported_types : List Ty
  supported_exts : List String

/-- The tail of `ParsingChain.__init__` once the base parser's output type
has been determined: converter compatibility check, then field assembly. -/
def ParsingChain.initChecked {V E : Type} (bp : BaseParserModel V E)
    (conv : ConverterModel V E) (strict : Bool) (parser_out_type : Ty) :
    Except ChainInitError (ParsingChain V E) :=
  if conv.is_able_to_convert strict parser_out_type then
    .ok { base := bp, converter := conv, strict := strict,
          supported_types := [conv.to_type], supported_exts := bp.supported_exts }
  else .error .inconsistentTypes

/-- `ParsingChain.__init__`. -/
def ParsingChain.init {V E : Type} (bp : BaseParserModel V E)
    (conv : ConverterModel V E) (strict : Bool)
    (base_parser_chosen_dest_type : Option Ty) :
    Except ChainInitError (ParsingChain V E) :=
  if Ty.anyT ∈ bp.supported_types then .error .pointlessAnyType
  else
    match base_parser_chosen_dest_type with
    | none =>
      match bp.supported_types with
      | [t] => ParsingChain.initChecked bp conv strict t
      | _ => .error .ambiguousDestType
    | some t => ParsingChain.initChecked bp conv strict t

/-- `ParsingChain._parse_singlefile`: base parser first, targeting the
converter's declared source type, then the converter; no local recovery. -/
def ParsingChain.parse_singlefile {V E : Type} (c : ParsingChain V E)
    (desired_type : Ty) (file_path encoding : String) : Except E V :=
  match c.base.parse_singlefile c.converter.from_type file_path encoding with
  | .error e => .error e
  | .ok first => c.converter.convert desired_type first

/-! ## The multifile collection parser (`MultifileCollectionParser`,
claims C8-C9) and `LazyDictionary` (claim C10) -/

/-- The collection kind of the desired type, as discriminated by the
`issubclass` chain at the end of `_parse_multifile`. -/
inductive CollKind where
  | listK
  | tupleK
  | setK
  | dictK
  | otherK
  deriving DecidableEq

/-- The errors `_parse_multifile` / the children-plan construction raise. -/
inductive MfError (E : Type) where
  | mutualExclusionError
  | backgroundNotSupported
  | unsupportedCollectionType
  | folderStructureError (expected found : Nat)
  | childError (e : E)
  deriving DecidableEq

/-- The assembled results: a lazy dictionary (children not parsed yet, only
their names known) or an eagerly parsed name-to-value mapping. -/
inductive MfResults (V : Type) where
  | lazyRes (keys : List String)
  | eagerRes (entries : List (String × V))
  deriving DecidableEq

/-- The returned collection: the facade kind plus the underlying results. -/
structure MfColl (V : Type) where
  kind : CollKind
  results : MfResults V
  deriving DecidableEq

/-- Python's `sorted` on `dict.items()`: sort the entries by name. -/
def sortByName {β : Type} (l : List (String × β)) : List (String × β) :=
  List.insertionSort (fun a b => a.1 ≤ b.1) l

/-- The `issubclass` chain choosing the facade for the desired type. -/
def mkFacade {V E : Type} (desired : CollKind) (res : MfResults V) :
    Except (MfError E) (MfColl V) :=
  match desired with
  | .otherK => .error .unsupportedCollectionType
  | k => .ok ⟨k, res⟩

/-- The eager `for child_name, child_plan in sorted(...)` loop: execute each
child plan in order; a child failure propagates immediately.  The second
component lists the children whose `execute` was invoked, in order. -/
def execChildren {V E : Type} :
    List (String × Plan V E) → Except E (List (String × V)) × List String
  | [] => (.ok [], [])
  | (n, p) :: rest =>
    match p.execResult with
    | .error e => (.error e, [n])
    | .ok v =>
      match execChildren rest with
      | (r, ex) => (r.map (fun l => (n, v) :: l), n :: ex)

/-- `MultifileCollectionParser._parse_multifile`.  The second component of
the result lists the children whose plan was executed, in order. -/
def parse_multifile {V E : Type} (desired : CollKind)
    (parsing_plan_for_children : List (String × Plan V E))
    (lazy_parsing background_parsing : Bool) :
    Except (MfError E) (MfColl V) × List String :=
  if lazy_parsing && background_parsing then
    (.error .mutualExclusionError, [])
  else if lazy_parsing then
    (mkFacade desired (.lazyRes (parsing_plan_for_children.map Prod.fst)), [])
  else if background_parsing then
    (.error .backgroundNotSupported, [])
  else
    match execChildren (sortByName parsing_plan_for_children) with
    | (.error e, executed) => (.error (.childError e), executed)
    | (.ok entries, executed) => (mkFacade desired (.eagerRes entries), executed)

/-- The desired collection type, as far as
`_get_parsing_plan_for_multifile_children` inspects it. -/
inductive CollectionType where
  | tupleT (item_types : List Ty)
  | monoT (kind : CollKind) (item_type : Ty)

/-- Modelled from the spec: `_extract_collection_base_type` (in
`type_inspection_tools`, not among the sources here) returns the tuple of
item types for a fixed-arity `Tuple[...]` type and the single item type for
`Dict`/`List`/`Set` types. -/
def extract_collection_base_type : CollectionType → List Ty ⊕ Ty
  | .tupleT ts => Sum.inl ts
  | .monoT _ t => Sum.inr t

/-- `MultifileCollectionParser._get_parsing_plan_for_multifile_children`.
`children` is the multifile-children mapping of the object on the
filesystem, `mkPlan` abstracts `parser_finder.build_parser_for_fileobject
_and_desiredtype(...)` followed by `create_parsing_plan(...)`. -/
def get_parsing_plan_for_multifile_children {F V E : Type}
    (children : List (String × F)) (desired : CollectionType)
    (mkPlan : F → Ty → Plan V E) :
    Except (MfError E) (List (String × Plan V E)) :=
  let n := children.length
  match extract_collection_base_type desired with
  | Sum.inl subtypes =>
    if n ≠ subtypes.length then
      .error (.folderStructureError subtypes.length n)
    else
      .ok (((sortByName children).zip subtypes).map
        (fun p => (p.1.1, mkPlan p.1.2 p.2)))
  | Sum.inr subtype =>
    .ok (((sortByName children).zip (List.replicate n subtype)).map
      (fun p => (p.1.1, mkPlan p.1.2 p.2)))

/-- `LazyDictionary`: inner cache, lazily loadable keys, loading method. -/
structure LazyDictionary (V : Type) where
  inner_dict : List (String × V)
  lazyloadable_keys : List String
  loading_method : String → V

/-- `LazyDictionary.__init__`. -/
def LazyDictionary.create {V : Type} (lazyloadable_keys : List String)
    (loading_method : String → V) : LazyDictionary V :=
  { inner_dict := [], lazyloadable_keys := lazyloadable_keys,
    loading_method := loading_method }

/-- `LazyDictionary.__getitem__`: `(result, new state, keys for which
loading_method was invoked during the call)`; `none` stands for `KeyError`. -/
def LazyDictionary.getitem {V : Type} (d : LazyDictionary V) (name : String) :
    Option V × LazyDictionary V × List String :=
  match dictLookup d.inner_dict name with
  | some v => (some v, d, [])
  | none =>
    if name ∈ d.lazyloadable_keys then
      let val := d.loading_method name
      (some val,
       { d with inner_dict := d.inner_dict ++ [(name, val)] }, [name])
    else (none, d, [])

/-- `LazyDictionary.keys()` returns `set(self.lazyloadable_keys)`. -/
def LazyDictionary.keys {V : Type} (d : LazyDictionary V) : List String :=
  d.lazyloadable_keys.dedup

/-- `LazyDictionary.__len__`. -/
def LazyDictionary.size {V : Type} (d : LazyDictionary V) : Nat :=
  d.lazyloadable_keys.length

/-- `LazyDictionary.__iter__`. -/
def LazyDictionary.iterKeys {V : Type} (d : LazyDictionary V) : List String :=
  d.lazyloadable_keys

/-- A sequence of `__getitem__` calls: `(results, final state, keys for
which loading_method was invoked, with multiplicity, in order)`. -/
def runLookups {V : Type} :
    LazyDictionary V → List String → List (Option V) × LazyDictionary V × List String
  | d, [] => ([], d, [])
  | d, q :: qs =>
    match d.getitem q with
    | (r, d', inv1) =>
      match runLookups d' qs with
      | (rs, d'', inv) => (r :: rs, d'', inv1 ++ inv)


/-- A concrete two-candidate cascade state: candidate 0 built a plan whose
execution fails with error 7, candidate 1 builds a plan that succeeds. -/
def wPlan0 : Plan Nat Nat := { execResult := Except.error 7 }

/-- The plan of the second witness candidate. -/
def wPlan1 : Plan Nat Nat := { execResult := Except.ok 3 }

/-- The witness state: candidate 0 is active, its plan is `wPlan0`. -/
def wState : CPState Nat Nat :=
  { parser_list := [{ create_parsing_plan := Except.ok wPlan0 },
                    { create_parsing_plan := Except.ok wPlan1 }],
    active_parser_idx := 0,
    active_parsing_plan := some wPlan0,
    parsing_plan_creation_errors := [] }

/-- A one-candidate list whose single candidate fails plan construction. -/
def wFailCands : List (Candidate Nat Nat) := [{ create_parsing_plan := Except.error 5 }]

/-- A candidate descriptor: parses `int` from single files with ext `.a`. -/
def capA : AnyParserCaps :=
  { supported_types := [Ty.named "int"], supported_exts := [".a"] }

/-- A candidate descriptor with a strictly larger descriptor than `capA`. -/
def capAB : AnyParserCaps :=
  { supported_types := [Ty.named "int", Ty.named "str"],
    supported_exts := [".a", ".b"] }

/-- A candidate descriptor declaring the `Any` wildcard. -/
def capAny : AnyParserCaps :=
  { supported_types := [Ty.anyT], supported_exts := [".a"] }

/-- A candidate descriptor that only supports multi-file parsing. -/
def capMulti : AnyParserCaps :=
  { supported_types := [Ty.named "int"], supported_exts := [multifile_ext] }

/-- A base parser supporting two output types, for the chain witnesses. -/
def wBase2 : BaseParserModel Nat Nat :=
  { supported_types := [Ty.named "int", Ty.named "str"], supported_exts := [".a"],
    parse_singlefile := fun _ _ _ => Except.ok 1 }

/-- A converter accepting any source type, for the chain witnesses. -/
def wConv : ConverterModel Nat Nat :=
  { from_type := Ty.named "int", to_type := Ty.named "set",
    is_able_to_convert := fun _ _ => true,
    convert := fun _ v => Except.ok (v + 1) }

/-- A concrete parsing chain over `wBase2` and `wConv`. -/
def wChain : ParsingChain Nat Nat :=
  { base := wBase2, converter := wConv, strict := true,
    supported_types := [wConv.to_type], supported_exts := wBase2.supported_exts }

/-! ## Lemmas about the dict embedding -/

theorem dictLookup_cons {κ ε : Type} [BEq κ] (a : κ × ε) (m : List (κ × ε)) (j : κ) :
    dictLookup (a :: m) j = if a.1 == j then some a.2 else dictLookup m j := by
  simp only [dictLookup, List.find?]
  cases h : a.1 == j <;> simp [h]

theorem dictLookup_map_overwrite_ne {κ ε : Type} [BEq κ] [LawfulBEq κ]
    (k j : κ) (v : ε) (hjk : j ≠ k) :
    ∀ m : List (κ × ε),
      dictLookup (m.map (fun p => if p.1 == k then (k, v) else p)) j = dictLookup m j := by
  intro m
  induction m with
  | nil => rfl
  | cons a m' ih =>
    simp only [List.map_cons]
    by_cases ha : a.1 = k
    · rw [dictLookup_cons, dictLookup_cons]
      have h1 : ((if a.1 == k then (k, v) else a) : κ × ε) = (k, v) := by simp [ha]
      rw [h1]
      have h2 : (k == j) = false := by
        simp only [beq_eq_false_iff_ne, ne_eq]
        intro hh
        exact hjk hh.symm
      have h3 : (a.1 == j) = false := by
        simp only [beq_eq_false_iff_ne, ne_eq, ha]
        intro hh
        exact hjk hh.symm
      simp only [h2, h3, if_false]
      exact ih
    · rw [dictLookup_cons, dictLookup_cons]
      have h1 : ((if a.1 == k then (k, v) else a) : κ × ε) = a := by simp [ha]
      rw [h1]
      cases h2 : a.1 == j <;> simp [ih]

theorem dictLookup_map_overwrite_self {κ ε : Type} [BEq κ] [LawfulBEq κ] (k : κ) (v : ε) :
    ∀ m : List (κ × ε), m.any (fun p => p.1 == k) = true →
      dictLookup (m.map (fun p => if p.1 == k then (k, v) else p)) k = some v := by
  intro m
  induction m with
  | nil => intro h; simp at h
  | cons a m' ih =>
    intro hany
    simp only [List.map_cons]
    rw [dictLookup_cons]
    by_cases ha : a.1 = k
    · have h1 : ((if a.1 == k then (k, v) else a) : κ × ε) = (k, v) := by simp [ha]
      rw [h1]
      simp
    · have h1 : ((if a.1 == k then (k, v) else a) : κ × ε) = a := by simp [ha]
      rw [h1]
      have h2 : (a.1 == k) = false := by simp [ha]
      simp only [h2, if_false]
      apply ih
      simp only [List.any_cons, h2, Bool.false_or] at hany
      exact hany

theorem dictLookup_append_right {κ ε : Type} [BEq κ] [LawfulBEq κ]
    (m1 m2 : List (κ × ε)) (j : κ)
    (h : dictLookup m1 j = none) : dictLookup (m1 ++ m2) j = dictLookup m2 j := by
  induction m1 with
  | nil => rfl
  | cons a m' ih =>
    rw [dictLookup_cons] at h
    rw [List.cons_append, dictLookup_cons]
    by_cases ha : a.1 = j
    · simp [ha] at h
    · have hb : (a.1 == j) = false := by simp [ha]
      simp only [hb, Bool.false_eq_true, if_false] at h ⊢
      exact ih h

theorem dictLookup_append_left {κ ε : Type} [BEq κ] [LawfulBEq κ]
    (m1 m2 : List (κ × ε)) (j : κ) (v : ε)
    (h : dictLookup m1 j = some v) : dictLookup (m1 ++ m2) j = some v := by
  induction m1 with
  | nil => simp [dictLookup] at h
  | cons a m' ih =>
    rw [dictLookup_cons] at h
    rw [List.cons_append, dictLookup_cons]
    by_cases ha : a.1 = j
    · have hb : (a.1 == j) = true := by simp [ha]
      rw [hb] at h ⊢
      exact h
    · have hb : (a.1 == j) = false := by simp [ha]
      simp only [hb, Bool.false_eq_true, if_false] at h ⊢
      exact ih h

theorem dictLookup_eq_none {κ ε : Type} [BEq κ] [LawfulBEq κ] (m : List (κ × ε)) (j : κ)
    (h : ∀ k ∈ dictKeys m, k ≠ j) : dictLookup m j = none := by
  induction m with
  | nil => rfl
  | cons a m' ih =>
    rw [dictLookup_cons]
    have h1 : a.1 ≠ j := h a.1 (by simp [dictKeys])
    have h2 : (a.1 == j) = false := by simp [h1]
    simp only [h2, Bool.false_eq_true, if_false]
    apply ih
    intro k hk
    apply h
    simp only [dictKeys, List.map_cons, List.mem_cons]
    exact Or.inr hk

theorem dictLookup_insert_self {κ ε : Type} [BEq κ] [LawfulBEq κ]
    (m : List (κ × ε)) (k : κ) (v : ε) :
    dictLookup (dictInsert m k v) k = some v := by
  unfold dictInsert
  by_cases hany : m.any (fun p => p.1 == k) = true
  · rw [if_pos hany]
    exact dictLookup_map_overwrite_self k v m hany
  · rw [if_neg hany]
    have hnone : dictLookup m k = none := by
      apply dictLookup_eq_none
      intro x hx hxj
      apply hany
      simp only [dictKeys, List.mem_map] at hx
      obtain ⟨p, hp, hpx⟩ := hx
      exact List.any_eq_true.mpr ⟨p, hp, by simp [hpx, hxj]⟩
    rw [dictLookup_append_right _ _ _ hnone, dictLookup_cons]
    simp

theorem dictLookup_insert_ne {κ ε : Type} [BEq κ] [LawfulBEq κ]
    (m : List (κ × ε)) (k j : κ) (v : ε) (hjk : j ≠ k) :
    dictLookup (dictInsert m k v) j = dictLookup m j := by
  unfold dictInsert
  by_cases hany : m.any (fun p => p.1 == k) = true
  · rw [if_pos hany]
    exact dictLookup_map_overwrite_ne k j v hjk m
  · rw [if_neg hany]
    cases hl : dictLookup m j with
    | some w => exact dictLookup_append_left _ _ _ _ hl
    | none =>
      rw [dictLookup_append_right _ _ _ hl, dictLookup_cons]
      have h2 : (k == j) = false := by
        simp only [beq_eq_false_iff_ne, ne_eq]
        intro hh
        exact hjk hh.symm
      rw [h2]
      rfl

theorem dictKeys_insert_subset {κ ε : Type} [BEq κ] [LawfulBEq κ]
    (m : List (κ × ε)) (k j : κ) (v : ε)
    (hj : j ∈ dictKeys (dictInsert m k v)) : j ∈ dictKeys m ∨ j = k := by
  unfold dictInsert at hj
  by_cases hany : m.any (fun p => p.1 == k) = true
  · rw [if_pos hany] at hj
    simp only [dictKeys, List.map_map, List.mem_map] at hj
    obtain ⟨p, hp, hpj⟩ := hj
    simp only [Function.comp] at hpj
    by_cases hpk : p.1 = k
    · right
      rw [if_pos (by simp [hpk] : (p.1 == k) = true)] at hpj
      exact hpj.symm
    · left
      rw [if_neg (by simp [hpk] : ¬ (p.1 == k) = true)] at hpj
      simp only [dictKeys, List.mem_map]
      exact ⟨p, hp, hpj⟩
  · rw [if_neg hany] at hj
    simp only [dictKeys, List.map_append, List.mem_append, List.map_cons] at hj
    cases hj with
    | inl h => exact Or.inl h
    | inr h => right; simpa using h

theorem dictKeys_insert_nodup {κ ε : Type} [BEq κ] [LawfulBEq κ]
    (m : List (κ × ε)) (k : κ) (v : ε)
    (h : (dictKeys m).Nodup) : (dictKeys (dictInsert m k v)).Nodup := by
  unfold dictInsert
  by_cases hany : m.any (fun p => p.1 == k) = true
  · rw [if_pos hany]
    have hkeys : dictKeys (m.map (fun p => if p.1 == k then (k, v) else p)) = dictKeys m := by
      simp only [dictKeys, List.map_map]
      apply List.map_congr_left
      intro p _
      simp only [Function.comp]
      by_cases hpk : p.1 = k
      · rw [if_pos (by simp [hpk] : (p.1 == k) = true)]
        exact hpk.symm
      · rw [if_neg (by simp [hpk] : ¬ (p.1 == k) = true)]
    rw [hkeys]
    exact h
  · rw [if_neg hany]
    have hk : k ∉ dictKeys m := by
      intro hmem
      apply hany
      simp only [dictKeys, List.mem_map] at hmem
      obtain ⟨p, hp, hpk⟩ := hmem
      exact List.any_eq_true.mpr ⟨p, hp, by simp [hpk]⟩
    simp only [dictKeys, List.map_append, List.map_cons, List.map_nil]
    rw [List.nodup_append]
    refine ⟨h, List.nodup_singleton k, ?_⟩
    intro a ha hb
    simp only [List.mem_singleton] at hb
    exact hk (hb ▸ ha)

theorem dictLookup_update_of_none {κ ε : Type} [BEq κ] [LawfulBEq κ] :
    ∀ (m2 m : List (κ × ε)) (j : κ), dictLookup m2 j = none →
      dictLookup (dictUpdate m m2) j = dictLookup m j := by
  intro m2
  induction m2 with
  | nil => intro m j _; rfl
  | cons a m2' ih =>
    intro m j h
    rw [dictLookup_cons] at h
    by_cases ha : a.1 = j
    · simp [ha] at h
    · have hb : (a.1 == j) = false := by simp [ha]
      simp only [hb, Bool.false_eq_true, if_false] at h
      simp only [dictUpdate, List.foldl_cons]
      have step := ih (dictInsert m a.1 a.2) j h
      simp only [dictUpdate] at step
      rw [step]
      exact dictLookup_insert_ne m a.1 j a.2 (fun hh => ha hh.symm)

theorem dictLookup_update_of_some {κ ε : Type} [BEq κ] [LawfulBEq κ] :
    ∀ (m2 m : List (κ × ε)) (j : κ) (v : ε), dictLookup m2 j = some v →
      (dictKeys m2).Nodup → dictLookup (dictUpdate m m2) j = some v := by
  intro m2
  induction m2 with
  | nil => intro m j v h _; simp [dictLookup] at h
  | cons a m2' ih =>
    intro m j v h hnd
    rw [dictLookup_cons] at h
    have hnd' : (dictKeys m2').Nodup := by
      simp only [dictKeys, List.map_cons, List.nodup_cons] at hnd
      exact hnd.2
    by_cases ha : a.1 = j
    · have hb : (a.1 == j) = true := by simp [ha]
      simp only [hb, if_true] at h
      have hnotin : dictLookup m2' j = none := by
        apply dictLookup_eq_none
        intro x hx hxj
        have hnotmem : a.1 ∉ dictKeys m2' := by
          simp only [dictKeys, List.map_cons, List.nodup_cons] at hnd
          exact hnd.1
        exact hnotmem (by rw [ha, ← hxj]; exact hx)
      simp only [dictUpdate, List.foldl_cons]
      have step := dictLookup_update_of_none m2' (dictInsert m a.1 a.2) j hnotin
      simp only [dictUpdate] at step
      rw [step, ← ha, dictLookup_insert_self]
      exact h
    · have hb : (a.1 == j) = false := by simp [ha]
      simp only [hb, Bool.false_eq_true, if_false] at h
      simp only [dictUpdate, List.foldl_cons]
      have step := ih (dictInsert m a.1 a.2) j v h hnd'
      simp only [dictUpdate] at step
      exact step

/-! ## Lemmas about the activation scan -/

theorem tryLoop_some_bounds {α ε : Type} :
    ∀ (rem : List (Candidate α ε)) (i : Nat) (cerrs : List (Nat × ε)) (j : Nat)
      (pl : Plan α ε) (cerrs' : List (Nat × ε)),
      tryLoop rem i cerrs = (some (j, pl), cerrs') → i ≤ j ∧ j < i + rem.length := by
  intro rem
  induction rem with
  | nil => intro i cerrs j pl cerrs' h; simp [tryLoop] at h
  | cons c rest ih =>
    intro i cerrs j pl cerrs' h
    simp only [tryLoop] at h
    cases hc : c.create_parsing_plan with
    | ok p =>
      rw [hc] at h
      simp at h
      obtain ⟨h1, _, _⟩ := h
      simp [h1.symm]
    | error e =>
      rw [hc] at h
      have := ih (i + 1) (dictInsert cerrs i e) j pl cerrs' h
      constructor
      · omega
      · simp only [List.length_cons]; omega

theorem tryLoop_lookup_lt {α ε : Type} :
    ∀ (rem : List (Candidate α ε)) (i : Nat) (cerrs : List (Nat × ε))
      (res : Option (Nat × Plan α ε)) (cerrs' : List (Nat × ε)),
      tryLoop rem i cerrs = (res, cerrs') →
      ∀ j : Nat, j < i → dictLookup cerrs' j = dictLookup cerrs j := by
  intro rem
  induction rem with
  | nil =>
    intro i cerrs res cerrs' h j _
    simp [tryLoop] at h
    rw [h.2]
  | cons c rest ih =>
    intro i cerrs res cerrs' h j hj
    simp only [tryLoop] at h
    cases hc : c.create_parsing_plan with
    | ok p =>
      rw [hc] at h
      simp at h
      rw [h.2]
    | error e =>
      rw [hc] at h
      have step := ih (i + 1) (dictInsert cerrs i e) res cerrs' h j (by omega)
      rw [step]
      exact dictLookup_insert_ne cerrs i j e (by omega)

theorem tryLoop_some_spec {α ε : Type} :
    ∀ (rem : List (Candidate α ε)) (i : Nat) (cerrs : List (Nat × ε)) (j : Nat)
      (pl : Plan α ε) (cerrs' : List (Nat × ε)),
      tryLoop rem i cerrs = (some (j, pl), cerrs') →
      ((rem[j - i]?).map (fun c => c.create_parsing_plan) = some (.ok pl) ∧
       ∀ l : Nat, i ≤ l → l < j →
         ∃ e, (rem[l - i]?).map (fun c => c.create_parsing_plan) = some (.error e) ∧
              dictLookup cerrs' l = some e) := by
  intro rem
  induction rem with
  | nil => intro i cerrs j pl cerrs' h; simp [tryLoop] at h
  | cons c rest ih =>
    intro i cerrs j pl cerrs' h
    simp only [tryLoop] at h
    cases hc : c.create_parsing_plan with
    | ok p =>
      rw [hc] at h
      simp at h
      obtain ⟨⟨hji, hpl⟩, hcerrs⟩ := h
      constructor
      · rw [← hji, Nat.sub_self]
        simp [hc, hpl]
      · intro l hl1 hl2
        omega
    | error e =>
      rw [hc] at h
      obtain ⟨hb1, _⟩ := tryLoop_some_bounds rest (i + 1) (dictInsert cerrs i e) j pl cerrs' h
      obtain ⟨ihA, ihB⟩ := ih (i + 1) (dictInsert cerrs i e) j pl cerrs' h
      constructor
      · have hj : j - i = (j - (i + 1)) + 1 := by omega
        rw [hj, List.getElem?_cons_succ]
        exact ihA
      · intro l hl1 hl2
        by_cases hli : l = i
        · subst hli
          refine ⟨e, ?_, ?_⟩
          · rw [Nat.sub_self]
            simp [hc]
          · have step := tryLoop_lookup_lt rest (l + 1) (dictInsert cerrs l e)
              (some (j, pl)) cerrs' h l (by omega)
            rw [step]
            exact dictLookup_insert_self cerrs l e
        · obtain ⟨e', he1, he2⟩ := ihB l (by omega) hl2
          refine ⟨e', ?_, he2⟩
          have hl : l - i = (l - (i + 1)) + 1 := by omega
          rw [hl, List.getElem?_cons_succ]
          exact he1

theorem tryLoop_none_spec {α ε : Type} :
    ∀ (rem : List (Candidate α ε)) (i : Nat) (cerrs : List (Nat × ε))
      (cerrs' : List (Nat × ε)),
      tryLoop rem i cerrs = (none, cerrs') →
      ∀ l : Nat, l < rem.length →
        ∃ e, (rem[l]?).map (fun c => c.create_parsing_plan) = some (.error e) ∧
             dictLookup cerrs' (i + l) = some e := by
  intro rem
  induction rem with
  | nil => intro i cerrs cerrs' _ l hl; simp at hl
  | cons c rest ih =>
    intro i cerrs cerrs' h l hl
    simp only [tryLoop] at h
    cases hc : c.create_parsing_plan with
    | ok p => rw [hc] at h; simp at h
    | error e =>
      rw [hc] at h
      cases l with
      | zero =>
        refine ⟨e, by simp [hc], ?_⟩
        have step := tryLoop_lookup_lt rest (i + 1) (dictInsert cerrs i e)
          none cerrs' h i (by omega)
        rw [Nat.add_zero, step]
        exact dictLookup_insert_self cerrs i e
      | succ n =>
        obtain ⟨e', he1, he2⟩ := ih (i + 1) (dictInsert cerrs i e) cerrs' h n
          (by simpa using Nat.lt_of_succ_lt_succ hl)
        refine ⟨e', by simpa using he1, ?_⟩
        have : i + (n + 1) = (i + 1) + n := by omega
        rw [this]
        exact he2

theorem activate_ok_spec {α ε : Type} (s : CPState α ε)
    (ac : Option (List (Nat × ε))) (s' : CPState α ε)
    (h : activateNextWorkingCandidate s ac = .ok s') :
    s'.parser_list = s.parser_list ∧
    0 ≤ s'.active_parser_idx ∧
    s.active_parser_idx + 1 ≤ s'.active_parser_idx ∧
    s'.active_parser_idx < (s.parser_list.length : Int) ∧
    (∃ pl, s'.active_parsing_plan = some pl ∧
       (s.parser_list[s'.active_parser_idx.toNat]?).map (fun c => c.create_parsing_plan)
         = some (.ok pl)) ∧
    (∀ j : Nat, (s.active_parser_idx + 1).toNat ≤ j → (j : Int) < s'.active_parser_idx →
       ∃ e, (s.parser_list[j]?).map (fun c => c.create_parsing_plan) = some (.error e) ∧
            dictLookup s'.parsing_plan_creation_errors j = some e) ∧
    (∀ j : Nat, j < (s.active_parser_idx + 1).toNat →
       dictLookup s'.parsing_plan_creation_errors j
         = dictLookup s.parsing_plan_creation_errors j) := by
  unfold activateNextWorkingCandidate at h
  cases htf : tryFrom s.parser_list (s.active_parser_idx + 1).toNat
      s.parsing_plan_creation_errors with
  | mk res cerrs =>
    rw [htf] at h
    cases res with
    | none => cases ac <;> simp at h
    | some ip =>
      obtain ⟨i, pl⟩ := ip
      simp at h
      subst h
      unfold tryFrom at htf
      obtain ⟨hb1, hb2⟩ := tryLoop_some_bounds _ _ _ _ _ _ htf
      have hdl : (s.parser_list.drop (s.active_parser_idx + 1).toNat).length
          = s.parser_list.length - (s.active_parser_idx + 1).toNat := by
        simp [List.length_drop]
      have hilen : i < s.parser_list.length := by omega
      have hilen' : (i : Int) < (s.parser_list.length : Int) := by exact_mod_cast hilen
      obtain ⟨specA, specB⟩ := tryLoop_some_spec _ _ _ _ _ _ htf
      refine ⟨rfl, Int.natCast_nonneg i, ?_, hilen', ?_, ?_, ?_⟩
      · have h1 : s.active_parser_idx + 1 ≤ ((s.active_parser_idx + 1).toNat : Int) :=
          Int.self_le_toNat _
        have h2 : ((s.active_parser_idx + 1).toNat : Int) ≤ (i : Int) := by
          exact_mod_cast hb1
        exact le_trans h1 h2
      · refine ⟨pl, rfl, ?_⟩
        rw [List.getElem?_drop] at specA
        have : (s.active_parser_idx + 1).toNat + (i - (s.active_parser_idx + 1).toNat) = i := by
          omega
        rw [this] at specA
        simpa using specA
      · intro j hj1 hj2
        have hj2i : (j : Int) < (i : Int) := hj2
        have hj2' : j < i := by exact_mod_cast hj2i
        obtain ⟨e, he1, he2⟩ := specB j hj1 hj2'
        rw [List.getElem?_drop] at he1
        have : (s.active_parser_idx + 1).toNat + (j - (s.active_parser_idx + 1).toNat) = j := by
          omega
        rw [this] at he1
        exact ⟨e, he1, he2⟩
      · intro j hj
        exact tryLoop_lookup_lt _ _ _ _ _ htf j hj

theorem activate_error_spec {α ε : Type} (s : CPState α ε)
    (ac : Option (List (Nat × ε))) (r : Raised ε)
    (h : activateNextWorkingCandidate s ac = .error r) :
    ∃ cerrs : List (Nat × ε),
      ((ac = none ∧ r = .creationCascade cerrs) ∨
       (∃ execErrs, ac = some execErrs ∧ r = .execCascade (dictUpdate cerrs execErrs))) ∧
      (∀ j : Nat, (s.active_parser_idx + 1).toNat ≤ j → j < s.parser_list.length →
        ∃ e, (s.parser_list[j]?).map (fun c => c.create_parsing_plan) = some (.error e) ∧
             dictLookup cerrs j = some e) ∧
      (∀ j : Nat, j < (s.active_parser_idx + 1).toNat →
        dictLookup cerrs j = dictLookup s.parsing_plan_creation_errors j) := by
  unfold activateNextWorkingCandidate at h
  cases htf : tryFrom s.parser_list (s.active_parser_idx + 1).toNat
      s.parsing_plan_creation_errors with
  | mk res cerrs =>
    rw [htf] at h
    cases res with
    | some ip => obtain ⟨i, pl⟩ := ip; simp at h
    | none =>
      refine ⟨cerrs, ?_, ?_, ?_⟩
      · cases ac with
        | none => simp at h; exact Or.inl ⟨rfl, h.symm⟩
        | some execErrs => simp at h; exact Or.inr ⟨execErrs, rfl, h.symm⟩
      · intro j hj1 hj2
        unfold tryFrom at htf
        have hdl : (s.parser_list.drop (s.active_parser_idx + 1).toNat).length
            = s.parser_list.length - (s.active_parser_idx + 1).toNat := by
          simp [List.length_drop]
        obtain ⟨e, he1, he2⟩ := tryLoop_none_spec _ _ _ _ htf
          (j - (s.active_parser_idx + 1).toNat) (by omega)
        rw [List.getElem?_drop] at he1
        have hidx : (s.active_parser_idx + 1).toNat
            + (j - (s.active_parser_idx + 1).toNat) = j := by omega
        rw [hidx] at he1 he2
        exact ⟨e, he1, he2⟩
      · intro j hj
        unfold tryFrom at htf
        exact tryLoop_lookup_lt _ _ _ _ _ htf j hj

/-! ## Unfolding equations for the execution loop -/

theorem executeLoop_none {α ε : Type} (s : CPState α ε) (execErrs : List (Nat × ε))
    (hs : s.active_parsing_plan = none) :
    executeLoop s execErrs
      = .error (.execCascade (dictUpdate s.parsing_plan_creation_errors execErrs)) := by
  rw [executeLoop, hs]

theorem executeLoop_exec_ok {α ε : Type} (s : CPState α ε) (execErrs : List (Nat × ε))
    (pl : Plan α ε) (v : α)
    (hs : s.active_parsing_plan = some pl) (hv : pl.execResult = .ok v) :
    executeLoop s execErrs = .ok v := by
  rw [executeLoop]
  simp only [hs, hv]

theorem executeLoop_exec_fail {α ε : Type} (s : CPState α ε) (execErrs : List (Nat × ε))
    (pl : Plan α ε) (e : ε)
    (hs : s.active_parsing_plan = some pl) (he : pl.execResult = .error e) :
    executeLoop s execErrs =
      match activateNextWorkingCandidate s
          (some (dictInsert execErrs s.active_parser_idx.toNat e)) with
      | .error r => .error r
      | .ok s' => executeLoop s' (dictInsert execErrs s.active_parser_idx.toNat e) := by
  rw [executeLoop]
  simp only [hs, he]
  cases hA : activateNextWorkingCandidate s
      (some (dictInsert execErrs s.active_parser_idx.toNat e)) <;> simp [hA]

/-! ## The execution loop aggregates every failure -/

theorem executeLoop_error_covers {α ε : Type} :
    ∀ (n : Nat) (s : CPState α ε) (execErrs : List (Nat × ε)) (r : Raised ε),
      s.parser_list.length ≤ s.active_parser_idx.toNat + n →
      LoopInv s execErrs →
      executeLoop s execErrs = .error r →
      ∃ m, r = .execCascade m ∧
        ∀ j : Nat, j < s.parser_list.length → FinalCovered s.parser_list m j := by
  intro n
  induction n with
  | zero =>
    intro s execErrs r hn hinv _
    obtain ⟨h0, h1, _⟩ := hinv
    exfalso
    omega
  | succ n ih =>
    intro s execErrs r hn hinv hrun
    obtain ⟨hge0, hlt, ⟨pl, hplan, hplok⟩, hcov, hnd, hkeys⟩ := hinv
    cases hres : pl.execResult with
    | ok v =>
      rw [executeLoop_exec_ok s execErrs pl v hplan hres] at hrun
      simp at hrun
    | error e =>
      rw [executeLoop_exec_fail s execErrs pl e hplan hres] at hrun
      have hstart : (s.active_parser_idx + 1).toNat = s.active_parser_idx.toNat + 1 := by
        omega
      have hdnd : (dictKeys (dictInsert execErrs s.active_parser_idx.toNat e)).Nodup :=
        dictKeys_insert_nodup execErrs s.active_parser_idx.toNat e hnd
      have hdub : ∀ k ∈ dictKeys (dictInsert execErrs s.active_parser_idx.toNat e),
          k ≤ s.active_parser_idx.toNat := by
        intro k hk
        rcases dictKeys_insert_subset execErrs s.active_parser_idx.toNat k e hk with hmem | hmem
        · exact le_of_lt (hkeys k hmem).1
        · omega
      have hdok : ∀ k ∈ dictKeys (dictInsert execErrs s.active_parser_idx.toNat e),
          ∃ pl2, (s.parser_list[k]?).map (fun c => c.create_parsing_plan)
            = some (.ok pl2) := by
        intro k hk
        rcases dictKeys_insert_subset execErrs s.active_parser_idx.toNat k e hk with hmem | hmem
        · exact (hkeys k hmem).2
        · rw [hmem]
          exact ⟨pl, hplok⟩
      have hdself : dictLookup (dictInsert execErrs s.active_parser_idx.toNat e)
          s.active_parser_idx.toNat = some e :=
        dictLookup_insert_self execErrs s.active_parser_idx.toNat e
      have hdgt : ∀ j : Nat, s.active_parser_idx.toNat < j →
          dictLookup (dictInsert execErrs s.active_parser_idx.toNat e) j = none := by
        intro j hj
        apply dictLookup_eq_none
        intro k hk hkj
        have := hdub k hk
        omega
      cases hA : activateNextWorkingCandidate s
          (some (dictInsert execErrs s.active_parser_idx.toNat e)) with
      | error rr =>
        rw [hA] at hrun
        simp at hrun
        subst hrun
        obtain ⟨cerrs, hshape, hcovhigh, hpres⟩ :=
          activate_error_spec s (some (dictInsert execErrs s.active_parser_idx.toNat e)) rr hA
        rcases hshape with ⟨habs, _⟩ | ⟨d2, hd2, hrr⟩
        · simp at habs
        · have hd2' : d2 = dictInsert execErrs s.active_parser_idx.toNat e := by
            simpa using hd2.symm
          subst hd2'
          refine ⟨dictUpdate cerrs (dictInsert execErrs s.active_parser_idx.toNat e), hrr, ?_⟩
          intro j hjL
          unfold FinalCovered
          rcases Nat.lt_trichotomy j s.active_parser_idx.toNat with hj | hj | hj
          · have hc := hcov j hj
            unfold Covered at hc
            rcases hc with ⟨e', hc1, hc2, hc3⟩ | ⟨pl', e', h1, h2, h3⟩
            · have hc2' : dictLookup cerrs j = some e' := by
                rw [hpres j (by omega)]
                exact hc2
              have hdj : dictLookup (dictInsert execErrs s.active_parser_idx.toNat e) j
                  = none := by
                rw [dictLookup_insert_ne execErrs s.active_parser_idx.toNat j e (by omega)]
                exact hc3
              refine ⟨e', ?_, Or.inl hc1⟩
              rw [dictLookup_update_of_none _ cerrs j hdj]
              exact hc2'
            · have hdj : dictLookup (dictInsert execErrs s.active_parser_idx.toNat e) j
                  = some e' := by
                rw [dictLookup_insert_ne execErrs s.active_parser_idx.toNat j e (by omega)]
                exact h3
              exact ⟨e', dictLookup_update_of_some _ cerrs j e' hdj hdnd,
                Or.inr ⟨pl', h1, h2⟩⟩
          · subst hj
            exact ⟨e, dictLookup_update_of_some _ cerrs _ e hdself hdnd,
              Or.inr ⟨pl, hplok, hres⟩⟩
          · obtain ⟨e', he1, he2⟩ := hcovhigh j (by omega) hjL
            refine ⟨e', ?_, Or.inl he1⟩
            rw [dictLookup_update_of_none _ cerrs j (hdgt j hj)]
            exact he2
      | ok s' =>
        rw [hA] at hrun
        obtain ⟨hP, h0', hadv, hlt', ⟨pl', hplan', hplok'⟩, hskip, hpres'⟩ :=
          activate_ok_spec s (some (dictInsert execErrs s.active_parser_idx.toNat e)) s' hA
        have hidx' : s.active_parser_idx.toNat + 1 ≤ s'.active_parser_idx.toNat := by
          omega
        have hinv' : LoopInv s' (dictInsert execErrs s.active_parser_idx.toNat e) := by
          unfold LoopInv
          refine ⟨h0', by rw [hP]; exact hlt', ⟨pl', hplan', by rw [hP]; exact hplok'⟩,
            ?_, hdnd, ?_⟩
          · intro j hj
            unfold Covered
            rw [hP]
            rcases Nat.lt_trichotomy j s.active_parser_idx.toNat with hjc | hjc | hjc
            · have hc := hcov j hjc
              unfold Covered at hc
              rcases hc with ⟨e', hc1, hc2, hc3⟩ | ⟨pl'', e', h1, h2, h3⟩
              · refine Or.inl ⟨e', hc1, ?_, ?_⟩
                · rw [hpres' j (by omega)]
                  exact hc2
                · rw [dictLookup_insert_ne execErrs s.active_parser_idx.toNat j e (by omega)]
                  exact hc3
              · refine Or.inr ⟨pl'', e', h1, h2, ?_⟩
                rw [dictLookup_insert_ne execErrs s.active_parser_idx.toNat j e (by omega)]
                exact h3
            · subst hjc
              exact Or.inr ⟨pl, e, hplok, hres, hdself⟩
            · obtain ⟨e', he1, he2⟩ := hskip j (by omega) (by omega)
              exact Or.inl ⟨e', he1, he2, hdgt j hjc⟩
          · intro k hk
            refine ⟨?_, ?_⟩
            · have := hdub k hk
              omega
            · rw [hP]
              exact hdok k hk
        obtain ⟨m, hm1, hm2⟩ := ih s' (dictInsert execErrs s.active_parser_idx.toNat e) r
          (by rw [hP]; omega) hinv' hrun
        refine ⟨m, hm1, ?_⟩
        intro j hj
        have hres' := hm2 j (by rw [hP]; exact hj)
        rw [hP] at hres'
        exact hres'

theorem CPState_execute_some {α ε : Type} (s : CPState α ε) (pl : Plan α ε)
    (hs : s.active_parsing_plan = some pl) :
    s.execute = executeLoop s [] := by
  unfold CPState.execute
  simp only [hs]

/-- Claim C1: when the active plan's execution fails, the cascading plan
records the failure under the active candidate in the execution-error map
and resumes the activation scan with that map, i.e. strictly at index
`active_parser_idx + 1`; every successful re-activation keeps the candidate
list, strictly increases the active index, installs a plan built by the
candidate at the new index, skips (in priority order) exactly candidates
whose plan construction failed, and leaves every record at an index at or
below the old active index untouched — so no candidate whose construction
or execution already failed is ever retried. -/
theorem cascading_execute_advances {α ε : Type} (s : CPState α ε) (pl : Plan α ε)
    (e : ε) (execErrs : List (Nat × ε))
    (hplan : s.active_parsing_plan = some pl)
    (hfail : pl.execResult = .error e) :
    (executeLoop s execErrs =
      match activateNextWorkingCandidate s
          (some (dictInsert execErrs s.active_parser_idx.toNat e)) with
      | .error r => .error r
      | .ok s' => executeLoop s' (dictInsert execErrs s.active_parser_idx.toNat e)) ∧
    (∀ s', activateNextWorkingCandidate s
          (some (dictInsert execErrs s.active_parser_idx.toNat e)) = .ok s' →
      s'.parser_list = s.parser_list ∧
      s.active_parser_idx + 1 ≤ s'.active_parser_idx ∧
      (∃ pl', s'.active_parsing_plan = some pl' ∧
        (s.parser_list[s'.active_parser_idx.toNat]?).map (fun c => c.create_parsing_plan)
          = some (.ok pl')) ∧
      (∀ j : Nat, (s.active_parser_idx + 1).toNat ≤ j → (j : Int) < s'.active_parser_idx →
        ∃ e', (s.parser_list[j]?).map (fun c => c.create_parsing_plan)
          = some (.error e')) ∧
      (∀ j : Nat, j < (s.active_parser_idx + 1).toNat →
        dictLookup s'.parsing_plan_creation_errors j
          = dictLookup s.parsing_plan_creation_errors j)) := by
  constructor
  · exact executeLoop_exec_fail s execErrs pl e hplan hfail
  · intro s' hA
    obtain ⟨hP, _, hadv, _, hactive, hskip, hpres⟩ :=
      activate_ok_spec s (some (dictInsert execErrs s.active_parser_idx.toNat e)) s' hA
    refine ⟨hP, hadv, hactive, ?_, hpres⟩
    intro j hj1 hj2
    obtain ⟨e', he1, _⟩ := hskip j hj1 hj2
    exact ⟨e', he1⟩

theorem cascading_execute_advances_witness :
    executeLoop wState [] =
      match activateNextWorkingCandidate wState
          (some (dictInsert [] wState.active_parser_idx.toNat 7)) with
      | .error r => .error r
      | .ok s' => executeLoop s' (dictInsert [] wState.active_parser_idx.toNat 7) :=
  (cascading_execute_advances wState wPlan0 7 [] rfl rfl).1

/-- Claim C2: a cascading plan never surfaces a single candidate failure on
its own: when running the plan raises, the raised error is one aggregate
`CascadeError` (construction- or execution-flavoured), and its failure map
covers every candidate of the list with that candidate's captured failure,
from the construction phase or from the execution phase. -/
theorem cascade_aggregates_all_failures {α ε : Type} (cands : List (Candidate α ε))
    (hne : cands ≠ []) (r : Raised ε)
    (hrun : runCascade cands = .error r) :
    ∃ m, (r = .creationCascade m ∨ r = .execCascade m) ∧
      ∀ j : Nat, j < cands.length → FinalCovered cands m j := by
  unfold runCascade at hrun
  have hlen : ¬ cands.length < 1 := by
    cases cands with
    | nil => exact absurd rfl hne
    | cons a l => simp
  cases hcr : createCascadingParsingPlan cands with
  | error r0 =>
    rw [hcr] at hrun
    simp at hrun
    subst hrun
    unfold createCascadingParsingPlan at hcr
    rw [if_neg hlen] at hcr
    obtain ⟨cerrs, hshape, hcovhigh, _⟩ := activate_error_spec _ none r0 hcr
    rcases hshape with ⟨_, hr⟩ | ⟨d2, hd2, _⟩
    · refine ⟨cerrs, Or.inl hr, ?_⟩
      intro j hj
      obtain ⟨e, he1, he2⟩ := hcovhigh j (Nat.zero_le j) hj
      exact ⟨e, he2, Or.inl he1⟩
    · simp at hd2
  | ok s0 =>
    rw [hcr] at hrun
    unfold createCascadingParsingPlan at hcr
    rw [if_neg hlen] at hcr
    obtain ⟨hP, h0', hadv, hlt', ⟨pl', hplan', hplok'⟩, hskip, _⟩ :=
      activate_ok_spec _ none s0 hcr
    have hPc : s0.parser_list = cands := hP
    have hrun' : executeLoop s0 [] = .error r := by
      rw [← CPState_execute_some s0 pl' hplan']
      exact hrun
    have hinv : LoopInv s0 [] := by
      unfold LoopInv
      have hlt2 : s0.active_parser_idx < (s0.parser_list.length : Int) := by
        rw [hPc]; exact hlt'
    
      refine ⟨h0', hlt2, ⟨pl', hplan', by rw [hPc]; exact hplok'⟩, ?_, List.nodup_nil, ?_⟩
      · intro j hj
        unfold Covered
        rw [hPc]
        obtain ⟨e', he1, he2⟩ := hskip j (Nat.zero_le j) (by omega)
        exact Or.inl ⟨e', he1, he2, rfl⟩
      · intro k hk
        simp [dictKeys] at hk
    obtain ⟨m, hm1, hm2⟩ := executeLoop_error_covers s0.parser_list.length s0 [] r
      (by omega) hinv hrun'
    refine ⟨m, Or.inr hm1, ?_⟩
    intro j hj
    have hfc := hm2 j (by rw [hPc]; exact hj)
    rw [hPc] at hfc
    exact hfc

theorem cascade_aggregates_all_failures_witness :
    ∃ m, ((Raised.creationCascade [((0 : Nat), (5 : Nat))]) = Raised.creationCascade m ∨
          (Raised.creationCascade [((0 : Nat), (5 : Nat))]) = Raised.execCascade m) ∧
      ∀ j : Nat, j < wFailCands.length → FinalCovered wFailCands m j :=
  cascade_aggregates_all_failures wFailCands
    (List.cons_ne_nil _ _) (Raised.creationCascade [(0, 5)]) rfl

/-! ## The cascading parser's add operation (claims C3-C5) -/

/-- Claim C3 (actual code behavior): `configured` is set to `False` in
`__init__` and never written again, so every `add_parser_to_cascade` call
re-adopts the descriptor of the parser being added: after adding a parser
with extensions `[".a"]` and then one with `[".a", ".b"]`, the cascade
advertises the second candidate's descriptor, not the first one's. -/
theorem cascade_descriptor_reconfigured_on_second_add :
    addAll CascadingParser.start [capA, capAB]
      = .ok { configured := false,
              supported_types := [Ty.named "int", Ty.named "str"],
              supported_exts := [".a", ".b"],
              parsers_list := [capA, capAB] } ∧
    [".a", ".b"] ≠ capA.supported_exts := by
  constructor
  · rfl
  · decide

/-- Claim C4 (actual code behavior): a cascade whose first candidate
declares the `Any` wildcard accepts a second candidate supporting only a
finite type set — the checks compare the freshly re-adopted descriptor
against the same parser, so no error is raised and the candidate is
appended; and a finite-typed cascade also accepts an `Any` candidate. -/
theorem cascade_any_accepts_finite_candidate :
    addAll CascadingParser.start [capAny, capA]
      = .ok { configured := false, supported_types := [Ty.named "int"],
              supported_exts := [".a"], parsers_list := [capAny, capA] } ∧
    addAll CascadingParser.start [capA, capAny]
      = .ok { configured := false, supported_types := [Ty.anyT],
              supported_exts := [".a"], parsers_list := [capA, capAny] } := by
  constructor
  · rfl
  · rfl

/-- Claim C5 (actual code behavior): a cascade whose first candidate
supports only single-file parsing accepts a second candidate that supports
only multi-file parsing: the single-file check compares the re-adopted
descriptor against the same parser, so no error is raised and the candidate
list grows from one to two entries. -/
theorem cascade_singlefile_accepts_multifile_candidate :
    supports_singlefile capA.supported_exts = true ∧
    supports_singlefile capMulti.supported_exts = false ∧
    addAll CascadingParser.start [capA, capMulti]
      = .ok { configured := false, supported_types := [Ty.named "int"],
              supported_exts := [multifile_ext],
              parsers_list := [capA, capMulti] } := by
  refine ⟨by decide, by decide, by rfl⟩

/-! ## Parsing chain construction and execution (claims C6-C7) -/

/-- Claim C6: `ParsingChain.__init__` rejects a wildcard-typed base parser
outright; with no chosen destination type it rejects a base parser whose
supported-type set has two or more elements; and with a chosen destination
type it succeeds whenever the converter accepts that type under the given
strictness, producing a chain advertising exactly the converter's
destination type and the base parser's extensions. -/
theorem parsing_chain_construction_validation {V E : Type}
    (bp : BaseParserModel V E) (conv : ConverterModel V E) (strict : Bool) :
    (Ty.anyT ∈ bp.supported_types →
      ∀ chosen, ParsingChain.init bp conv strict chosen = .error .pointlessAnyType) ∧
    (Ty.anyT ∉ bp.supported_types → 2 ≤ bp.supported_types.length →
      ParsingChain.init bp conv strict none = .error .ambiguousDestType) ∧
    (Ty.anyT ∉ bp.supported_types → ∀ t, conv.is_able_to_convert strict t = true →
      ParsingChain.init bp conv strict (some t)
        = .ok { base := bp, converter := conv, strict := strict,
                supported_types := [conv.to_type],
                supported_exts := bp.supported_exts }) := by
  refine ⟨?_, ?_, ?_⟩
  · intro h chosen
    unfold ParsingChain.init
    rw [if_pos h]
  · intro h hlen
    unfold ParsingChain.init
    rw [if_neg h]
    obtain ⟨a, b, rest, hl⟩ : ∃ a b rest, bp.supported_types = a :: b :: rest := by
      cases hx : bp.supported_types with
      | nil => rw [hx] at hlen; simp at hlen
      | cons a rest =>
        cases rest with
        | nil => rw [hx] at hlen; simp at hlen
        | cons b rest2 => exact ⟨a, b, rest2, rfl⟩
    rw [hl]
  · intro h t hconv
    unfold ParsingChain.init
    rw [if_neg h]
    show ParsingChain.initChecked bp conv strict t = _
    unfold ParsingChain.initChecked
    rw [if_pos hconv]

theorem parsing_chain_construction_validation_witness :
    ParsingChain.init wBase2 wConv true none = .error .ambiguousDestType :=
  (parsing_chain_construction_validation wBase2 wConv true).2.1 (by decide) (by decide)

/-- Claim C7: `ParsingChain._parse_singlefile` first invokes the base
parser's single-file primitive targeting the converter's declared source
type `converter.from_type` (not the caller's desired type); a base-parser
exception propagates unchanged, and on success the converter is applied to
the parsed value for the desired type, its outcome returned unchanged. -/
theorem parsing_chain_parse_singlefile_spec {V E : Type} (c : ParsingChain V E)
    (desired_type : Ty) (file_path encoding : String) :
    (∀ e, c.base.parse_singlefile c.converter.from_type file_path encoding = .error e →
      c.parse_singlefile desired_type file_path encoding = .error e) ∧
    (∀ v, c.base.parse_singlefile c.converter.from_type file_path encoding = .ok v →
      c.parse_singlefile desired_type file_path encoding
        = c.converter.convert desired_type v) := by
  constructor
  · intro e he
    unfold ParsingChain.parse_singlefile
    rw [he]
  · intro v hv
    unfold ParsingChain.parse_singlefile
    rw [hv]

theorem parsing_chain_parse_singlefile_spec_witness :
    wChain.parse_singlefile (Ty.named "set") "f.a" "utf-8"
      = wChain.converter.convert (Ty.named "set") 1 :=
  (parsing_chain_parse_singlefile_spec wChain (Ty.named "set") "f.a" "utf-8").2 1 rfl

/-! ## Multifile collection parsing (claims C8-C9) -/

/-- Claim C8: `_parse_multifile` validates its flags before doing any work:
with both `lazy_parsing` and `background_parsing` set it raises the
mutual-exclusion `ValueError` with no child plan executed, and with
`background_parsing` alone it fails fast with the explicit "background
parsing is not yet supported" `ValueError`, again executing no child. -/
theorem multifile_flags_validated_before_work {V E : Type} (desired : CollKind)
    (children : List (String × Plan V E)) :
    parse_multifile desired children true true
      = ((.error .mutualExclusionError : Except (MfError E) (MfColl V)), []) ∧
    parse_multifile desired children false true
      = ((.error .backgroundNotSupported : Except (MfError E) (MfColl V)), []) := by
  constructor
  · rfl
  · rfl

theorem zip_replicate_map_eq {F V E : Type} (mkPlan : F → Ty → Plan V E) (t : Ty) :
    ∀ l : List (String × F),
      ((l.zip (List.replicate l.length t)).map (fun p => (p.1.1, mkPlan p.1.2 p.2)))
        = l.map (fun c => (c.1, mkPlan c.2 t)) := by
  intro l
  induction l with
  | nil => rfl
  | cons a l' ih =>
    simp only [List.length_cons, List.replicate_succ, List.zip_cons_cons, List.map_cons]
    rw [ih]

/-- Claim C9: children-plan construction for a fixed-arity tuple type raises
`FolderAndFilesStructureError` unless the number of multifile children
equals the tuple's arity; for a non-tuple collection type the extracted item
type is replicated once per child and one plan is built for every child, in
name-sorted order (the result enumerates a name-sorted permutation of the
children, each with a plan for the single item type). -/
theorem multifile_children_plan_spec {F V E : Type}
    (children : List (String × F)) (desired : CollectionType)
    (mkPlan : F → Ty → Plan V E) :
    (∀ ts, desired = .tupleT ts → children.length ≠ ts.length →
      get_parsing_plan_for_multifile_children children desired mkPlan
        = .error (.folderStructureError ts.length children.length)) ∧
    (∀ k t, desired = .monoT k t →
      get_parsing_plan_for_multifile_children children desired mkPlan
        = .ok ((sortByName children).map (fun c => (c.1, mkPlan c.2 t))) ∧
      (sortByName children).Perm children ∧
      List.Pairwise (fun a b => a.1 ≤ b.1) (sortByName children)) := by
  constructor
  · intro ts hd hne
    subst hd
    unfold get_parsing_plan_for_multifile_children
    simp only [extract_collection_base_type]
    rw [if_pos hne]
  · intro k t hd
    subst hd
    refine ⟨?_, ?_, ?_⟩
    · unfold get_parsing_plan_for_multifile_children
      simp only [extract_collection_base_type]
      have hlen : (sortByName children).length = children.length :=
        List.length_insertionSort _ _
      rw [← hlen, zip_replicate_map_eq]
    · exact List.perm_insertionSort _ _
    · haveI hTot : IsTotal (String × F) (fun a b => a.1 ≤ b.1) :=
        ⟨fun a b => le_total a.1 b.1⟩
      haveI hTrans : IsTrans (String × F) (fun a b => a.1 ≤ b.1) :=
        ⟨fun a b c hab hbc => le_trans hab hbc⟩
      exact List.sorted_insertionSort _ _

theorem multifile_children_plan_spec_witness :
    get_parsing_plan_for_multifile_children [("x", 0), ("y", 1), ("z", 2)]
      (CollectionType.tupleT [Ty.named "int"])
      (fun (_ : Nat) (_ : Ty) => ({ execResult := Except.ok 0 } : Plan Nat Nat))
      = .error (.folderStructureError 1 3) :=
  (multifile_children_plan_spec [("x", 0), ("y", 1), ("z", 2)]
    (CollectionType.tupleT [Ty.named "int"]) _).1 [Ty.named "int"] rfl (by decide)

/-! ## LazyDictionary (claim C10) -/

theorem dictLookup_some_mem {κ ε : Type} [BEq κ] [LawfulBEq κ]
    (m : List (κ × ε)) (k : κ) (v : ε)
    (h : dictLookup m k = some v) : (k, v) ∈ m := by
  unfold dictLookup at h
  cases hf : m.find? (fun p => p.1 == k) with
  | none => rw [hf] at h; simp at h
  | some p =>
    rw [hf] at h
    simp at h
    have h1 : p.1 = k := by simpa using List.find?_some hf
    have h2 : p ∈ m := List.mem_of_find?_eq_some hf
    have h3 : (k, v) = p := by
      cases p with
      | mk pa pb =>
        simp only at h1 h
        rw [h1, h]
    rw [h3]
    exact h2

theorem not_mem_dictKeys_of_lookup_none {κ ε : Type} [BEq κ] [LawfulBEq κ]
    (m : List (κ × ε)) (k : κ)
    (h : dictLookup m k = none) : k ∉ dictKeys m := by
  induction m with
  | nil => simp [dictKeys]
  | cons a m' ih =>
    rw [dictLookup_cons] at h
    by_cases ha : a.1 = k
    · simp [ha] at h
    · have hb : (a.1 == k) = false := by simp [ha]
      simp only [hb, Bool.false_eq_true, if_false] at h
      simp only [dictKeys, List.map_cons, List.mem_cons]
      push_neg
      exact ⟨fun hh => ha hh.symm, ih h⟩

theorem runLookups_spec {V : Type} (f : String → V) (keys : List String) :
    ∀ (qs : List String) (d : LazyDictionary V),
      d.loading_method = f →
      d.lazyloadable_keys = keys →
      (∀ p ∈ d.inner_dict, p.2 = f p.1) →
      (∀ q ∈ qs, q ∈ keys) →
      (runLookups d qs).1 = qs.map (fun q => some (f q)) ∧
      (runLookups d qs).2.1.lazyloadable_keys = keys ∧
      (runLookups d qs).2.1.loading_method = f ∧
      (runLookups d qs).2.2.Nodup ∧
      (∀ q ∈ (runLookups d qs).2.2, q ∉ dictKeys d.inner_dict ∧ q ∈ qs) := by
  intro qs
  induction qs with
  | nil =>
    intro d hf hkeys _ _
    exact ⟨rfl, hkeys, hf, List.nodup_nil, by simp [runLookups]⟩
  | cons q qs' ih =>
    intro d hf hkeys hinner hq
    cases hl : dictLookup d.inner_dict q with
    | some v =>
      have hget : d.getitem q = (some v, d, []) := by
        unfold LazyDictionary.getitem
        rw [hl]
      have hv : v = f q := by
        have hmem := dictLookup_some_mem d.inner_dict q v hl
        simpa using hinner (q, v) hmem
      obtain ⟨ih1, ih2, ih3, ih4, ih5⟩ := ih d hf hkeys hinner
        (fun x hx => hq x (List.mem_cons_of_mem q hx))
      cases hrec : runLookups d qs' with
      | mk rs rest =>
        cases rest with
        | mk d2 inv =>
          have hgoal : runLookups d (q :: qs') = (some v :: rs, d2, [] ++ inv) := by
            simp only [runLookups, hget, hrec]
          rw [hrec] at ih1 ih2 ih3 ih4 ih5
          simp only at ih1 ih2 ih3 ih4 ih5
          rw [hgoal]
          refine ⟨?_, ih2, ih3, by simpa using ih4, ?_⟩
          · simp only [List.map_cons, hv, ih1]
          · intro x hx
            simp only [List.nil_append] at hx
            obtain ⟨hx1, hx2⟩ := ih5 x hx
            exact ⟨hx1, List.mem_cons_of_mem q hx2⟩
    | none =>
      have hqk : q ∈ d.lazyloadable_keys := by
        rw [hkeys]
        exact hq q (List.mem_cons_self q qs')
      have hget : d.getitem q
          = (some (d.loading_method q),
             { d with inner_dict := d.inner_dict ++ [(q, d.loading_method q)] },
             [q]) := by
        unfold LazyDictionary.getitem
        rw [hl]
        rw [if_pos hqk]
      have hinner' : ∀ p ∈ d.inner_dict ++ [(q, d.loading_method q)], p.2 = f p.1 := by
        intro p hp
        rcases List.mem_append.mp hp with hp1 | hp2
        · exact hinner p hp1
        · simp only [List.mem_singleton] at hp2
          rw [hp2]
          simp [hf]
      obtain ⟨ih1, ih2, ih3, ih4, ih5⟩ := ih
        { d with inner_dict := d.inner_dict ++ [(q, d.loading_method q)] }
        hf hkeys hinner' (fun x hx => hq x (List.mem_cons_of_mem q hx))
      cases hrec : runLookups
          { d with inner_dict := d.inner_dict ++ [(q, d.loading_method q)] } qs' with
      | mk rs rest =>
        cases rest with
        | mk d2 inv =>
          have hgoal : runLookups d (q :: qs')
              = (some (d.loading_method q) :: rs, d2, [q] ++ inv) := by
            simp only [runLookups, hget, hrec]
          rw [hrec] at ih1 ih2 ih3 ih4 ih5
          simp only at ih1 ih2 ih3 ih4 ih5
          rw [hgoal]
          have hqnotinv : q ∉ inv := by
            intro hqi
            have := (ih5 q hqi).1
            apply this
            simp [dictKeys]
          refine ⟨?_, ih2, ih3, ?_, ?_⟩
          · simp only [List.map_cons, hf, ih1]
          · simp only [List.cons_append, List.nil_append]
            exact List.nodup_cons.mpr ⟨hqnotinv, ih4⟩
          · intro x hx
            simp only [List.cons_append, List.nil_append, List.mem_cons] at hx
            rcases hx with hx | hx
            · subst hx
              exact ⟨not_mem_dictKeys_of_lookup_none d.inner_dict x hl,
                List.mem_cons_self x qs'⟩
            · obtain ⟨hx1, hx2⟩ := ih5 x hx
              refine ⟨?_, List.mem_cons_of_mem q hx2⟩
              intro hmem
              apply hx1
              simp only [dictKeys, List.map_append, List.mem_append]
              exact Or.inl hmem
    
/-- Claim C10: for a fresh `LazyDictionary` over `keys` and loader `f`, any
sequence of lookups of lazily loadable keys succeeds, each returning the
loaded value `f q`; the loader is invoked at most once per key over the
whole sequence (the first lookup caches, later lookups hit the cache); and
`keys()`, `len()` and iteration reflect the full lazy-loadable key list both
before any load and after the whole sequence. -/
theorem lazy_dictionary_loads_once {V : Type} (keys : List String) (f : String → V)
    (qs : List String) (hq : ∀ q ∈ qs, q ∈ keys) :
    (runLookups (LazyDictionary.create keys f) qs).1
      = qs.map (fun q => some (f q)) ∧
    (runLookups (LazyDictionary.create keys f) qs).2.2.Nodup ∧
    (∀ q ∈ (runLookups (LazyDictionary.create keys f) qs).2.2, q ∈ qs) ∧
    (runLookups (LazyDictionary.create keys f) qs).2.1.keys
      = (LazyDictionary.create keys f).keys ∧
    (runLookups (LazyDictionary.create keys f) qs).2.1.size = keys.length ∧
    (runLookups (LazyDictionary.create keys f) qs).2.1.iterKeys = keys ∧
    (LazyDictionary.create keys f).size = keys.length ∧
    (LazyDictionary.create keys f).iterKeys = keys := by
  obtain ⟨h1, h2, h3, h4, h5⟩ := runLookups_spec f keys qs (LazyDictionary.create keys f)
    rfl rfl (by simp [LazyDictionary.create]) hq
  refine ⟨h1, h4, fun q hql => (h5 q hql).2, ?_, ?_, ?_, rfl, rfl⟩
  · unfold LazyDictionary.keys
    rw [h2]
    rfl
  · unfold LazyDictionary.size
    rw [h2]
  · unfold LazyDictionary.iterKeys
    rw [h2]

theorem lazy_dictionary_loads_once_witness :
    (runLookups (LazyDictionary.create ["a", "b"] String.length) ["a", "a", "b"]).1
      = (["a", "a", "b"].map (fun q => some (String.length q))) :=
  (lazy_dictionary_loads_once ["a", "b"] String.length ["a", "a", "b"] (by decide)).1

end Parsyfiles
